import Mathlib

/-!
Formalisation of the dimension-selection procedure of the `pc_scores`
repository (`dimension_selection/wasserstein.ipynb`): the function
`wasserstein_dim_select` together with its supporting helpers `pc_scores`
and `poly_kernel`.

Embedding choices:
* A matrix is a total function `ℕ → ℕ → ℚ`; the intended row/column counts
  are passed separately (numpy arrays carry their shape at runtime; slicing
  `Y[:train,:]` / `Y[train:n,:]` becomes index shifting).
* Real/float arithmetic is embedded in `ℚ`; the external numerical
  providers (`scipy.sparse.linalg.svds` as the truncated-SVD solver,
  `ot.dist` / `ot.emd2` as the optimal-transport solver) are abstract
  function parameters gathered in a `Providers` structure.
* `scipy.sparse.linalg.svds(A, k)` raises a `ValueError` unless
  `1 ≤ k < min A.shape`; this invalid-input behaviour is modelled by the
  wrapper `svds` returning `none` exactly outside that range.
* Python `1/n1`, `1/n2` raise `ZeroDivisionError` on an empty point set;
  the loop body returns `none` in that case.
* Python 3 `round` rounds half to even (`pyRound`).
* `np.argsort` followed by `[::-1]` is modelled by a stable ascending sort
  of the index list followed by `List.reverse` (`argsortDesc`).
-/

namespace PCScores

/-- A matrix with rational entries; row and column counts are tracked
separately by each operation. -/
def Mat : Type := ℕ → ℕ → ℚ

/-- Matrix product with explicit inner dimension `k`:
`(A @ B) i j = ∑ a < k, A i a * B a j`. -/
def matMul (k : ℕ) (A B : Mat) : Mat :=
  fun i j => ∑ a in Finset.range k, A i a * B a j

/-- Matrix transpose `A.T`. -/
def matTrans (A : Mat) : Mat := fun i j => A j i

/-- Python 3 `round`: round half to even (banker's rounding). -/
def pyRound (q : ℚ) : ℤ :=
  if Int.fract q < 1 / 2 then ⌊q⌋
  else if 1 / 2 < Int.fract q then ⌊q⌋ + 1
  else if ⌊q⌋ % 2 = 0 then ⌊q⌋ else ⌊q⌋ + 1

/-- `train = round(n * split)` as a natural number of rows. -/
def trainOf (n : ℕ) (split : ℚ) : ℕ := (pyRound ((n : ℚ) * split)).toNat

/-- The external numerical providers used by the notebook.
`svdSolver A m p k` is the value `scipy.sparse.linalg.svds(A, k)` returns
on an `m × p` matrix when `k` is in the legal range: a triple `(U, s, Vh)`.
`dist X n1 p Yt n2` is `ot.dist(X, Yt, metric='euclidean')` for an
`n1 × p` and an `n2 × p` point cloud; `emd2 a n1 b n2 M` is
`ot.emd2(a, b, M)` with weight vectors of lengths `n1`, `n2`. -/
structure Providers where
  svdSolver : Mat → ℕ → ℕ → ℕ → Mat × (ℕ → ℚ) × Mat
  dist : Mat → ℕ → ℕ → Mat → ℕ → Mat
  emd2 : (ℕ → ℚ) → ℕ → (ℕ → ℚ) → ℕ → Mat → ℚ

/-- `scipy.sparse.linalg.svds(A, k)` on an `m × p` matrix: raises
(`none`) unless `1 ≤ k` and `k < min(A.shape)`. -/
def svds (solver : Mat → ℕ → ℕ → ℕ → Mat × (ℕ → ℚ) × Mat)
    (A : Mat) (m p k : ℕ) : Option (Mat × (ℕ → ℚ) × Mat) :=
  if 1 ≤ k ∧ k < min m p then some (solver A m p k) else none

/-- `s.argsort()`: the index list `0..k-1` stably sorted so that the
values `s i` are ascending. -/
def argsortAsc (s : ℕ → ℚ) (k : ℕ) : List ℕ :=
  List.insertionSort (fun i j => s i ≤ s j) (List.range k)

/-- `s.argsort()[::-1]`: indices of `s` in descending value order. -/
def argsortDesc (s : ℕ → ℚ) (k : ℕ) : List ℕ := (argsortAsc s k).reverse

/-- `A[idx, :]` — permute the rows of a matrix by an index list. -/
def rowPerm (idx : List ℕ) (A : Mat) : Mat := fun i j => A (idx.getD i 0) j

/-- `s[idx]` — permute a vector by an index list. -/
def vecPerm (idx : List ℕ) (s : ℕ → ℚ) : ℕ → ℚ := fun i => s (idx.getD i 0)

/-- `P = Vh.T[:,:r] @ Vh[:r,:]`: the rank-`r` projection matrix,
`P i j = ∑ a < r, Vh a i * Vh a j`. -/
def projMat (Vh : Mat) (r : ℕ) : Mat :=
  fun i j => ∑ a in Finset.range r, Vh a i * Vh a j

/-- The `for r in range(1, rtry+1)` loop of `wasserstein_dim_select`:
`wsLoop pr Ytrain Ytest n1 p n2 Vh k` builds the list `ws` for candidate
ranks `1..k`.  Each iteration forms `P`, projects `Yproj = Ytrain @ P.T`,
builds the Euclidean cost matrix and appends the transport cost with
uniform weights `1/n1`, `1/n2`; Python's division raises (`none`) when a
point set is empty. -/
def wsLoop (pr : Providers) (Ytrain Ytest : Mat) (n1 p n2 : ℕ)
    (Vh : Mat) : ℕ → Option (List ℚ)
  | 0 => some []
  | r + 1 =>
    match wsLoop pr Ytrain Ytest n1 p n2 Vh r with
    | none => none
    | some ws =>
      if n1 = 0 ∨ n2 = 0 then none
      else
        let P := projMat Vh (r + 1)
        let Yproj := matMul p Ytrain (matTrans P)
        let M := pr.dist Yproj n1 p Ytest n2
        some (ws ++ [pr.emd2 (fun _ => 1 / (n1 : ℚ)) n1
                             (fun _ => 1 / (n2 : ℚ)) n2 M])

/-- `wasserstein_dim_select(Y, split, rmax)` on an `n × p` data matrix. -/
def wasserstein_dim_select (pr : Providers) (Y : Mat) (n p : ℕ)
    (split : ℚ) (rmax : ℕ) : Option (List ℚ) :=
  let train := trainOf n split
  let rtry := min train rmax
  let Ytrain := Y
  let Ytest : Mat := fun i j => Y (train + i) j
  match svds pr.svdSolver Ytrain train p rmax with
  | none => none
  | some (_, s, Vh) =>
    let idx := argsortDesc s rmax
    let Vh2 := rowPerm idx Vh
    wsLoop pr Ytrain Ytest train p (n - train) Vh2 rtry

/-- `pc_scores(X, r, return_eig)` on an `m × p` matrix: truncated SVD at
rank `r`, sort singular values descending with matching right singular
vectors, score matrix `Y = X @ Vh.T`; returns `(Y, s)` when `return_eig`
is not `None`, else `Y` alone. -/
def pc_scores {α : Type} (solver : Mat → ℕ → ℕ → ℕ → Mat × (ℕ → ℚ) × Mat)
    (X : Mat) (m p r : ℕ) (return_eig : Option α) :
    Option (Mat ⊕ (Mat × (ℕ → ℚ))) :=
  match svds solver X m p r with
  | none => none
  | some (_, s, Vh) =>
    let idx := argsortDesc s r
    let s2 := vecPerm idx s
    let Vh2 := rowPerm idx Vh
    let Y := matMul p X (matTrans Vh2)
    match return_eig with
    | some _ => some (Sum.inr (Y, s2))
    | none => some (Sum.inl Y)

/-- `poly_kernel(Z, c, r) = (Z @ Z.T + c) ** r` (elementwise power) for an
`n × d` matrix `Z`. -/
def poly_kernel (Z : Mat) (d : ℕ) (c : ℚ) (r : ℕ) : Mat :=
  fun i j => (matMul d Z (matTrans Z) i j + c) ^ r

/-! ### Structural lemmas about the rank-sweep loop -/

lemma wsLoop_length (pr : Providers) (A B : Mat) (n1 p n2 : ℕ) (V : Mat) :
    ∀ k ws, wsLoop pr A B n1 p n2 V k = some ws → ws.length = k := by
  intro k
  induction k with
  | zero => intro ws h; simp [wsLoop] at h; simp [← h]
  | succ r ih =>
    intro ws h
    rw [wsLoop] at h
    cases hprev : wsLoop pr A B n1 p n2 V r with
    | none => rw [hprev] at h; simp at h
    | some ws0 =>
      rw [hprev] at h
      by_cases hz : n1 = 0 ∨ n2 = 0
      · simp [hz] at h
      · simp only [hz, if_false, Option.some.injEq] at h
        rw [← h]
        simp [ih ws0 hprev]

lemma wsLoop_eq_none_iff (pr : Providers) (A B : Mat) (n1 p n2 : ℕ) (V : Mat) :
    ∀ k, wsLoop pr A B n1 p n2 V k = none ↔ (1 ≤ k ∧ (n1 = 0 ∨ n2 = 0)) := by
  intro k
  induction k with
  | zero => simp [wsLoop]
  | succ r ih =>
    rw [wsLoop]
    cases hprev : wsLoop pr A B n1 p n2 V r with
    | none =>
      have hr := (ih).mp hprev
      simp [hr.2]
    | some ws0 =>
      by_cases hz : n1 = 0 ∨ n2 = 0
      · simp [hz]
      · simp [hz]

lemma wsLoop_exists (pr : Providers) (A B : Mat) (n1 p n2 : ℕ) (V : Mat) (k : ℕ)
    (h1 : n1 ≠ 0) (h2 : n2 ≠ 0) :
    ∃ ws, wsLoop pr A B n1 p n2 V k = some ws ∧ ws.length = k := by
  cases hres : wsLoop pr A B n1 p n2 V k with
  | none =>
    rcases (wsLoop_eq_none_iff pr A B n1 p n2 V k).mp hres with ⟨-, h | h⟩
    · exact absurd h h1
    · exact absurd h h2
  | some ws => exact ⟨ws, rfl, wsLoop_length pr A B n1 p n2 V k ws hres⟩

lemma wds_eq_of_valid (pr : Providers) (Y : Mat) (n p : ℕ) (split : ℚ) (rmax : ℕ)
    (h1 : 1 ≤ rmax) (h2 : rmax < min (trainOf n split) p) :
    wasserstein_dim_select pr Y n p split rmax =
      wsLoop pr Y (fun i j => Y (trainOf n split + i) j) (trainOf n split) p
        (n - trainOf n split)
        (rowPerm (argsortDesc (pr.svdSolver Y (trainOf n split) p rmax).2.1 rmax)
                 (pr.svdSolver Y (trainOf n split) p rmax).2.2)
        (min (trainOf n split) rmax) := by
  rcases hE : pr.svdSolver Y (trainOf n split) p rmax with ⟨U, sv, Vh⟩
  simp only [wasserstein_dim_select, svds, if_pos (And.intro h1 h2), hE]

lemma wds_none_of_invalid (pr : Providers) (Y : Mat) (n p : ℕ) (split : ℚ) (rmax : ℕ)
    (h : ¬(1 ≤ rmax ∧ rmax < min (trainOf n split) p)) :
    wasserstein_dim_select pr Y n p split rmax = none := by
  simp only [wasserstein_dim_select, svds, if_neg h]

lemma argsortDesc_perm (s : ℕ → ℚ) (k : ℕ) : (argsortDesc s k).Perm (List.range k) :=
  (List.reverse_perm _).trans (List.perm_insertionSort _ _)

lemma argsortAsc_sorted (s : ℕ → ℚ) (k : ℕ) :
    (argsortAsc s k).Sorted (fun i j => s i ≤ s j) := by
  letI : IsTotal ℕ (fun i j => s i ≤ s j) := ⟨fun a b => le_total (s a) (s b)⟩
  letI : IsTrans ℕ (fun i j => s i ≤ s j) := ⟨fun a b c hab hbc => le_trans hab hbc⟩
  exact List.sorted_insertionSort _ _

lemma argsortDesc_sorted (s : ℕ → ℚ) (k : ℕ) :
    ((argsortDesc s k).map s).Sorted (fun x y => x ≥ y) := by
  have h1 : ((argsortAsc s k).map s).Sorted (fun x y => x ≤ y) :=
    List.Pairwise.map s (fun a b hab => hab) (argsortAsc_sorted s k)
  have h2 : (argsortDesc s k).map s = ((argsortAsc s k).map s).reverse := by
    unfold argsortDesc
    exact List.map_reverse _ _
  rw [h2]
  exact List.pairwise_reverse.mpr h1

/-! ### Concrete instantiations used to exercise the theorems -/

/-- A trivial truncated-SVD provider for concrete instantiations. -/
def solvW : Mat → ℕ → ℕ → ℕ → Mat × (ℕ → ℚ) × Mat := fun A _ _ _ => (A, fun _ => 0, A)

/-- Concrete providers whose transport outputs are identically zero. -/
def prW : Providers := ⟨solvW, fun _ _ _ _ _ => fun _ _ => 0, fun _ _ _ _ _ => 0⟩

/-- The all-zero data matrix. -/
def YW : Mat := fun _ _ => 0

lemma pyRound_natCast (m : ℕ) : pyRound (m : ℚ) = m := by
  unfold pyRound
  rw [Int.fract_natCast, Int.floor_natCast]
  norm_num

lemma trainOf_eval (n m : ℕ) (split : ℚ) (h : (n : ℚ) * split = m) : trainOf n split = m := by
  unfold trainOf
  rw [h, pyRound_natCast]
  exact Int.toNat_natCast m

lemma trainOf_four_half : trainOf 4 (1 / 2) = 2 :=
  trainOf_eval 4 2 (1 / 2) (by norm_num)

lemma trainOf_two_half : trainOf 2 (1 / 2) = 1 :=
  trainOf_eval 2 1 (1 / 2) (by norm_num)

lemma wdsW_eval : wasserstein_dim_select prW YW 4 2 (1 / 2) 1 = some [0] := by
  unfold wasserstein_dim_select
  rw [trainOf_four_half]
  simp [svds, wsLoop, argsortDesc, argsortAsc, rowPerm, prW, solvW, YW]

lemma wdsW_none : wasserstein_dim_select prW YW 2 2 (1 / 2) 1 = none := by
  unfold wasserstein_dim_select
  rw [trainOf_two_half]
  simp [svds]

lemma wsLoop_nonneg (pr : Providers) (A B : Mat) (n1 p n2 : ℕ) (V : Mat)
    (hdist : ∀ (X : Mat) (m1 q : ℕ) (X2 : Mat) (m2 i j : ℕ), 0 ≤ pr.dist X m1 q X2 m2 i j)
    (hemd : ∀ (m1 m2 : ℕ) (M : Mat), (∀ i j, 0 ≤ M i j) →
      0 ≤ pr.emd2 (fun _ => 1 / (m1 : ℚ)) m1 (fun _ => 1 / (m2 : ℚ)) m2 M) :
    ∀ k ws, wsLoop pr A B n1 p n2 V k = some ws → ∀ x ∈ ws, 0 ≤ x := by
  intro k
  induction k with
  | zero =>
    intro ws h x hx
    simp [wsLoop] at h
    subst h
    simp at hx
  | succ r ih =>
    intro ws h
    rw [wsLoop] at h
    cases hprev : wsLoop pr A B n1 p n2 V r with
    | none => rw [hprev] at h; simp at h
    | some ws0 =>
      rw [hprev] at h
      by_cases hz : n1 = 0 ∨ n2 = 0
      · simp [hz] at h
      · simp only [hz, if_false, Option.some.injEq] at h
        intro x hx
        rw [← h] at hx
        rcases List.mem_append.mp hx with hx | hx
        · exact ih ws0 hprev x hx
        · have hx2 := List.mem_singleton.mp hx
          subst hx2
          exact hemd n1 n2 _ (fun i j => hdist _ _ _ _ _ _ _)

/-- C1: for every valid input on which the call succeeds,
`wasserstein_dim_select` returns a sequence whose length is exactly
`rtry = min(round(n*split), rmax)`, one entry per candidate rank. -/
theorem wds_output_length (pr : Providers) (Y : Mat) (n p : ℕ) (split : ℚ) (rmax : ℕ)
    (hn : 2 ≤ n) (hp : 1 ≤ p) (hs0 : 0 < split) (hs1 : split < 1) (hr : 1 ≤ rmax)
    (ws : List ℚ) (h : wasserstein_dim_select pr Y n p split rmax = some ws) :
    ws.length = min (trainOf n split) rmax := by
  by_cases hv : 1 ≤ rmax ∧ rmax < min (trainOf n split) p
  · rw [wds_eq_of_valid pr Y n p split rmax hv.1 hv.2] at h
    exact wsLoop_length _ _ _ _ _ _ _ _ _ h
  · rw [wds_none_of_invalid pr Y n p split rmax hv] at h
    exact absurd h (by simp)

theorem wds_output_length_witness :
    (2 : ℕ) ≤ 4 ∧ [(0 : ℚ)].length = min (trainOf 4 (1 / 2)) 1 :=
  ⟨by norm_num,
   wds_output_length prW YW 4 2 (1 / 2) 1 (by norm_num) (by norm_num) (by norm_num)
     (by norm_num) (by norm_num) [0] wdsW_eval⟩

/-- C2: on a valid data matrix and split fraction, the call fails with an
invalid-input error exactly when `train < 1`, `train ≥ n`, `rmax < 1`, or
`rmax` exceeds `min(Ytrain.shape) - 1`; on every other input no such error
is raised. -/
theorem wds_invalid_input_iff (pr : Providers) (Y : Mat) (n p : ℕ) (split : ℚ) (rmax : ℕ)
    (hn : 2 ≤ n) (hp : 1 ≤ p) (hs0 : 0 < split) (hs1 : split < 1) :
    (wasserstein_dim_select pr Y n p split rmax = none ↔
      (trainOf n split < 1 ∨ n ≤ trainOf n split ∨ rmax < 1 ∨
        min (trainOf n split) p - 1 < rmax)) := by
  by_cases hv : 1 ≤ rmax ∧ rmax < min (trainOf n split) p
  · have htr : rmax < trainOf n split := lt_of_lt_of_le hv.2 (min_le_left _ _)
    rw [wds_eq_of_valid pr Y n p split rmax hv.1 hv.2, min_eq_right htr.le,
        wsLoop_eq_none_iff]
    have h1 := hv.1
    have h2 := hv.2
    omega
  · rw [wds_none_of_invalid pr Y n p split rmax hv]
    refine iff_of_true rfl ?_
    omega

theorem wds_invalid_input_iff_witness :
    (wasserstein_dim_select prW YW 4 2 (1 / 2) 1 = none ↔
      (trainOf 4 (1 / 2) < 1 ∨ 4 ≤ trainOf 4 (1 / 2) ∨ (1 : ℕ) < 1 ∨
        min (trainOf 4 (1 / 2)) 2 - 1 < 1)) :=
  wds_invalid_input_iff prW YW 4 2 (1 / 2) 1 (by norm_num) (by norm_num) (by norm_num)
    (by norm_num)

/-- C3 counterexample: with `n = 2`, `p = 2`, `split = 1/2`, `rmax = 1`
the training half has exactly one row (`train == 1`), and the call fails
(the SVD solver requires `rmax < min(Ytrain.shape)`), so it does not
return a length-1 sequence. -/
theorem wds_train_one_fails :
    trainOf 2 (1 / 2) = 1 ∧ wasserstein_dim_select prW YW 2 2 (1 / 2) 1 = none :=
  ⟨trainOf_two_half, wdsW_none⟩

/-- C3 amended: when `rmax == 1` and the remaining inputs satisfy the
solver's constraints (`train ≥ 2`, `train < n`, `p ≥ 2`), `rtry` equals 1
and `wasserstein_dim_select` returns a length-1 sequence without error. -/
theorem wds_rmax_one_boundary (pr : Providers) (Y : Mat) (n p : ℕ) (split : ℚ) (rmax : ℕ)
    (hr : rmax = 1) (ht : 2 ≤ trainOf n split) (htn : trainOf n split < n) (hp : 2 ≤ p) :
    min (trainOf n split) rmax = 1 ∧
      ∃ ws, wasserstein_dim_select pr Y n p split rmax = some ws ∧ ws.length = 1 := by
  subst hr
  have hv2 : 1 < min (trainOf n split) p := by omega
  have hmin : min (trainOf n split) 1 = 1 := by omega
  refine ⟨hmin, ?_⟩
  rw [wds_eq_of_valid pr Y n p split 1 le_rfl hv2, hmin]
  exact wsLoop_exists _ _ _ _ _ _ _ _ (by omega) (by omega)

theorem wds_rmax_one_boundary_witness :
    min (trainOf 4 (1 / 2)) 1 = 1 ∧
      ∃ ws, wasserstein_dim_select prW YW 4 2 (1 / 2) 1 = some ws ∧ ws.length = 1 :=
  wds_rmax_one_boundary prW YW 4 2 (1 / 2) 1 rfl (by rw [trainOf_four_half])
    (by rw [trainOf_four_half]; norm_num) (by norm_num)

/-- C4: on a successful call the truncated SVD is taken once, at rank
`rmax` (not `rtry`): the whole output is computed by the rank sweep from
the single solver output at `(Ytrain, rmax)`, whose rows `Vh` are permuted
by the same index list `idx` that sorts the singular values descending. -/
theorem wds_single_svd_descending (pr : Providers) (Y : Mat) (n p : ℕ) (split : ℚ)
    (rmax : ℕ) (h1 : 1 ≤ rmax) (h2 : rmax < min (trainOf n split) p) :
    ∃ idx : List ℕ, idx.Perm (List.range rmax) ∧
      ((idx.map (pr.svdSolver Y (trainOf n split) p rmax).2.1).Sorted (fun x y => x ≥ y)) ∧
      wasserstein_dim_select pr Y n p split rmax =
        wsLoop pr Y (fun i j => Y (trainOf n split + i) j) (trainOf n split) p
          (n - trainOf n split)
          (rowPerm idx (pr.svdSolver Y (trainOf n split) p rmax).2.2)
          (min (trainOf n split) rmax) :=
  ⟨argsortDesc (pr.svdSolver Y (trainOf n split) p rmax).2.1 rmax,
   argsortDesc_perm _ _, argsortDesc_sorted _ _,
   wds_eq_of_valid pr Y n p split rmax h1 h2⟩

theorem wds_single_svd_descending_witness :
    ∃ idx : List ℕ, idx.Perm (List.range 1) ∧
      ((idx.map (prW.svdSolver YW (trainOf 4 (1 / 2)) 2 1).2.1).Sorted (fun x y => x ≥ y)) ∧
      wasserstein_dim_select prW YW 4 2 (1 / 2) 1 =
        wsLoop prW YW (fun i j => YW (trainOf 4 (1 / 2) + i) j) (trainOf 4 (1 / 2)) 2
          (4 - trainOf 4 (1 / 2))
          (rowPerm idx (prW.svdSolver YW (trainOf 4 (1 / 2)) 2 1).2.2)
          (min (trainOf 4 (1 / 2)) 1) :=
  wds_single_svd_descending prW YW 4 2 (1 / 2) 1 le_rfl
    (by rw [trainOf_four_half]; norm_num)


/-- C5: assuming the rows of `Vh` are orthonormal, the projection matrix
`P = Vh[:r,:]^T @ Vh[:r,:]` is symmetric and idempotent, and projecting
with `P.T` agrees with projecting with `P`, keeping the points in the
`p`-dimensional ambient space. -/
theorem projMat_properties (Vh : Mat) (r p : ℕ)
    (horth : ∀ a, a < r → ∀ b, b < r →
      (∑ j in Finset.range p, Vh a j * Vh b j) = if a = b then 1 else 0) :
    (∀ i j, matTrans (projMat Vh r) i j = projMat Vh r i j) ∧
    (∀ i j, matMul p (projMat Vh r) (projMat Vh r) i j = projMat Vh r i j) ∧
    (∀ A : Mat, ∀ i j, matMul p A (matTrans (projMat Vh r)) i j = matMul p A (projMat Vh r) i j) := by
  have hsym : ∀ i j, matTrans (projMat Vh r) i j = projMat Vh r i j := by
    intro i j
    unfold matTrans projMat
    exact Finset.sum_congr rfl fun a _ => mul_comm _ _
  refine ⟨hsym, ?_, ?_⟩
  · intro i j
    unfold matMul projMat
    calc
      (∑ k in Finset.range p, (∑ a in Finset.range r, Vh a i * Vh a k) *
          (∑ b in Finset.range r, Vh b k * Vh b j))
        = ∑ k in Finset.range p, ∑ a in Finset.range r, ∑ b in Finset.range r,
            (Vh a i * Vh b j) * (Vh a k * Vh b k) := by
          refine Finset.sum_congr rfl fun k _ => ?_
          rw [Finset.sum_mul_sum]
          exact Finset.sum_congr rfl fun a _ => Finset.sum_congr rfl fun b _ => by ring
      _ = ∑ a in Finset.range r, ∑ b in Finset.range r,
            (Vh a i * Vh b j) * (∑ k in Finset.range p, Vh a k * Vh b k) := by
          rw [Finset.sum_comm]
          refine Finset.sum_congr rfl fun a _ => ?_
          rw [Finset.sum_comm]
          exact Finset.sum_congr rfl fun b _ => (Finset.mul_sum _ _ _).symm
      _ = ∑ a in Finset.range r, ∑ b in Finset.range r,
            (Vh a i * Vh b j) * (if a = b then 1 else 0) := by
          refine Finset.sum_congr rfl fun a ha => Finset.sum_congr rfl fun b hb => ?_
          rw [horth a (Finset.mem_range.mp ha) b (Finset.mem_range.mp hb)]
      _ = ∑ a in Finset.range r, Vh a i * Vh a j := by
          refine Finset.sum_congr rfl fun a ha => ?_
          simp only [mul_ite, mul_one, mul_zero]
          rw [Finset.sum_ite_eq (Finset.range r) a (fun b => Vh a i * Vh b j)]
          simp [Finset.mem_range.mp ha]
  · intro A i j
    unfold matMul
    exact Finset.sum_congr rfl fun a _ => by rw [hsym a j]

/-- A single orthonormal row used to instantiate `projMat_properties`. -/
def VhW : Mat := fun _ _ => 1

theorem projMat_properties_witness :
    (∀ a, a < 1 → ∀ b, b < 1 →
      (∑ j in Finset.range 1, VhW a j * VhW b j) = if a = b then 1 else 0) ∧
    matMul 1 (projMat VhW 1) (projMat VhW 1) 0 0 = projMat VhW 1 0 0 := by
  have horth : ∀ a, a < 1 → ∀ b, b < 1 →
      (∑ j in Finset.range 1, VhW a j * VhW b j) = if a = b then 1 else 0 := by
    intro a ha b hb
    have ha0 : a = 0 := by omega
    have hb0 : b = 0 := by omega
    subst ha0; subst hb0
    simp [VhW]
  exact ⟨horth, (projMat_properties VhW 1 1 horth).2.1 0 0⟩

/-- C6: every entry of the returned sequence is nonnegative, given that
the transport provider returns a nonnegative value on any entrywise
nonnegative cost matrix with uniform weights, and that the Euclidean cost
matrices produced by `ot.dist` are entrywise nonnegative. -/
theorem wds_entries_nonneg (pr : Providers) (Y : Mat) (n p : ℕ) (split : ℚ) (rmax : ℕ)
    (hdist : ∀ (X : Mat) (m1 q : ℕ) (X2 : Mat) (m2 i j : ℕ), 0 ≤ pr.dist X m1 q X2 m2 i j)
    (hemd : ∀ (m1 m2 : ℕ) (M : Mat), (∀ i j, 0 ≤ M i j) →
      0 ≤ pr.emd2 (fun _ => 1 / (m1 : ℚ)) m1 (fun _ => 1 / (m2 : ℚ)) m2 M)
    (ws : List ℚ) (h : wasserstein_dim_select pr Y n p split rmax = some ws) :
    ∀ x ∈ ws, 0 ≤ x := by
  by_cases hv : 1 ≤ rmax ∧ rmax < min (trainOf n split) p
  · rw [wds_eq_of_valid pr Y n p split rmax hv.1 hv.2] at h
    exact wsLoop_nonneg pr _ _ _ _ _ _ hdist hemd _ ws h
  · rw [wds_none_of_invalid pr Y n p split rmax hv] at h
    exact absurd h (by simp)

theorem wds_entries_nonneg_witness :
    wasserstein_dim_select prW YW 4 2 (1 / 2) 1 = some [0] ∧ (0 : ℚ) ≤ 0 :=
  ⟨wdsW_eval,
   wds_entries_nonneg prW YW 4 2 (1 / 2) 1
     (by intro X m1 q X2 m2 i j; simp [prW])
     (by intro m1 m2 M hM; simp [prW])
     [0] wdsW_eval 0 (by simp)⟩

/-- C7: the pipeline is deterministic — two invocations with identical
data matrix, split fraction, rank cap and (deterministic) providers
produce identical output sequences. -/
theorem wds_deterministic (pr1 pr2 : Providers) (Y1 Y2 : Mat) (n p : ℕ)
    (split1 split2 : ℚ) (rmax1 rmax2 : ℕ)
    (hpr : pr1 = pr2) (hY : Y1 = Y2) (hsp : split1 = split2) (hrm : rmax1 = rmax2) :
    wasserstein_dim_select pr1 Y1 n p split1 rmax1 =
      wasserstein_dim_select pr2 Y2 n p split2 rmax2 := by
  subst hpr; subst hY; subst hsp; subst hrm; rfl

theorem wds_deterministic_witness :
    wasserstein_dim_select prW YW 4 2 (1 / 2) 1 = wasserstein_dim_select prW YW 4 2 (1 / 2) 1 :=
  wds_deterministic prW prW YW YW 4 2 (1 / 2) (1 / 2) 1 1 rfl rfl rfl rfl

/-- C8: the truncated-SVD solver succeeds only when `rmax < min(train, p)`,
so on every successful call `train > rmax`, `rtry = min(train, rmax) = rmax`,
and the returned sequence has length exactly `rmax`. -/
theorem wds_success_min (pr : Providers) (Y : Mat) (n p : ℕ) (split : ℚ) (rmax : ℕ)
    (ws : List ℚ) (h : wasserstein_dim_select pr Y n p split rmax = some ws) :
    rmax < trainOf n split ∧ min (trainOf n split) rmax = rmax ∧ ws.length = rmax := by
  by_cases hv : 1 ≤ rmax ∧ rmax < min (trainOf n split) p
  · have htr : rmax < trainOf n split := lt_of_lt_of_le hv.2 (min_le_left _ _)
    refine ⟨htr, min_eq_right htr.le, ?_⟩
    rw [wds_eq_of_valid pr Y n p split rmax hv.1 hv.2, min_eq_right htr.le] at h
    exact wsLoop_length _ _ _ _ _ _ _ _ _ h
  · rw [wds_none_of_invalid pr Y n p split rmax hv] at h
    exact absurd h (by simp)

theorem wds_success_min_witness :
    wasserstein_dim_select prW YW 4 2 (1 / 2) 1 = some [0] ∧
      1 < trainOf 4 (1 / 2) ∧ min (trainOf 4 (1 / 2)) 1 = 1 ∧ [(0 : ℚ)].length = 1 :=
  ⟨wdsW_eval, wds_success_min prW YW 4 2 (1 / 2) 1 [0] wdsW_eval⟩

/-- C9: `pc_scores(X, r, return_eig)` returns the pair `(Y, s)` whenever
`return_eig` is any non-`None` value, and `Y` alone exactly when it is
`None`; in both cases `Y = X @ Vh^T` with `Vh` permuted by the index list
that sorts the singular values descending. -/
theorem pc_scores_shape {α : Type} (solver : Mat → ℕ → ℕ → ℕ → Mat × (ℕ → ℚ) × Mat)
    (X : Mat) (m p r : ℕ) (return_eig : Option α)
    (h1 : 1 ≤ r) (h2 : r < min m p) :
    ∃ idx : List ℕ, idx.Perm (List.range r) ∧
      ((idx.map (solver X m p r).2.1).Sorted (fun x y => x ≥ y)) ∧
      (∀ a : α, return_eig = some a →
        pc_scores solver X m p r return_eig =
          some (Sum.inr (matMul p X (matTrans (rowPerm idx (solver X m p r).2.2)),
            vecPerm idx (solver X m p r).2.1))) ∧
      (return_eig = none →
        pc_scores solver X m p r return_eig =
          some (Sum.inl (matMul p X (matTrans (rowPerm idx (solver X m p r).2.2))))) := by
  refine ⟨argsortDesc (solver X m p r).2.1 r, argsortDesc_perm _ _,
    argsortDesc_sorted _ _, ?_, ?_⟩
  · intro a ha
    rcases hE : solver X m p r with ⟨U, sv, Vh⟩
    simp only [pc_scores, svds, if_pos (And.intro h1 h2), hE, ha]
  · intro ha
    rcases hE : solver X m p r with ⟨U, sv, Vh⟩
    simp only [pc_scores, svds, if_pos (And.intro h1 h2), hE, ha]

theorem pc_scores_shape_witness :
    ∃ idx : List ℕ, idx.Perm (List.range 1) ∧
      ((idx.map (solvW YW 4 2 1).2.1).Sorted (fun x y => x ≥ y)) ∧
      (∀ a : Bool, (some false : Option Bool) = some a →
        pc_scores solvW YW 4 2 1 (some false) =
          some (Sum.inr (matMul 2 YW (matTrans (rowPerm idx (solvW YW 4 2 1).2.2)),
            vecPerm idx (solvW YW 4 2 1).2.1))) ∧
      ((some false : Option Bool) = none →
        pc_scores solvW YW 4 2 1 (some false) =
          some (Sum.inl (matMul 2 YW (matTrans (rowPerm idx (solvW YW 4 2 1).2.2))))) :=
  pc_scores_shape solvW YW 4 2 1 (some false) (by norm_num) (by norm_num)

/-- C10: for every matrix `Z`, shift `c` and exponent `r`, the kernel
matrix `poly_kernel(Z, c, r) = (Z @ Z.T + c) ** r` equals its own
transpose. -/
theorem poly_kernel_symmetric (Z : Mat) (d : ℕ) (c : ℚ) (r : ℕ) :
    ∀ i j, poly_kernel Z d c r i j = matTrans (poly_kernel Z d c r) i j := by
  intro i j
  unfold matTrans poly_kernel matMul matTrans
  have hs : (∑ a in Finset.range d, Z i a * Z j a) = ∑ a in Finset.range d, Z j a * Z i a :=
    Finset.sum_congr rfl fun a _ => mul_comm _ _
  rw [hs]

end PCScores
